import Mathlib

/-!
Verification of the chunking and vector-retrieval subsystem of a RAG chatbot.

This file shallowly embeds the Python source:
  backend/document_processor.py  (DocumentProcessor._create_chunks)
  backend/llm_service.py         (LLMService.generate_embeddings, _create_hash_embedding)
  backend/vector_store.py        (VectorStore: add_documents, search, load_index)
  backend/vector_store_supabase.py (VectorStoreSupabase: add_documents, search,
                                    _create_simple_embedding)

Modelling conventions:
  Python str       -> List Char (text manipulated by index arithmetic)
  Python dict      -> association list (List (String x PyVal)), first key wins on lookup,
                      update keeps position of an existing key (CPython semantics)
  Python float     -> rational numbers (exact arithmetic idealization of IEEE floats)
  numpy norm       -> an explicit parameter nrm : List Q -> Q; the positive-definiteness
                      of the Euclidean norm that proofs rely on is the hypothesis NormSpec
  hashlib.md5      -> implemented from the MD5 algorithm over byte lists (Nat mod 2^32)
  while loops      -> fuel-indexed recursion; termination claims become fuel-sufficiency
                      theorems
  raised exception -> Except results
-/

namespace RAG

/-- A Python dictionary value occurring in the metadata dictionaries of this code base:
either a string or a non-negative integer. -/
inductive PyVal where
  | s (v : String)
  | n (v : Nat)
deriving DecidableEq, Repr

/-- A Python dict with string keys, as an association list in insertion order. -/
abbrev PyDict := List (String × PyVal)

/-- Python dict subscript access, first matching key. -/
def dictGet (d : PyDict) (k : String) : Option PyVal :=
  (d.find? (fun p => p.1 = k)).map (fun p => p.2)

/-- The six characters stripped by Python str.strip(). -/
def isPySpace (c : Char) : Bool :=
  c = ' ' || c = '\t' || c = '\n' || c = '\r' || c = '\x0B' || c = '\x0C'

/-- Python str.strip(): remove leading and trailing whitespace. -/
def pyStrip (l : List Char) : List Char :=
  ((l.dropWhile isPySpace).reverse.dropWhile isPySpace).reverse

/-- Python slice text[s:e] for 0 <= s <= e (out-of-range ends clamp). -/
def pySlice (text : List Char) (s e : Nat) : List Char :=
  (text.drop s).take (e - s)

/-- Helper for pyRfind: scan indices j-1, j-2, ... down to s for the character c. -/
def pyRfindAux (text : List Char) (c : Char) (s : Nat) : Nat → Int
  | 0 => -1
  | j + 1 => if s ≤ j ∧ text.get? j = some c then (j : Int) else pyRfindAux text c s j

/-- Python str.rfind(c, s, e): greatest index i with s <= i < min e len and text[i] = c,
or -1 when there is none. -/
def pyRfind (text : List Char) (c : Char) (s e : Nat) : Int :=
  pyRfindAux text c s (min e text.length)

/-! ## DocumentProcessor._create_chunks -/

/-- One chunk record produced by the segmenter: a content string and a metadata dict. -/
structure Chunk where
  content : List Char
  metadata : PyDict
deriving DecidableEq, Repr

/-- The metadata dict literal built inside _create_chunks. -/
def mkChunkMeta (filename : String) (idx s e : Nat) : PyDict :=
  [("filename", PyVal.s filename), ("chunk_index", PyVal.n idx),
   ("start_pos", PyVal.n s), ("end_pos", PyVal.n e)]

/-- The end position computed for the window starting at start: start + chunk_size,
pulled back to the last sentence boundary in the window (or, if that is missing or
closer than 100 characters to start, the last space), when the raw edge lands inside
the text. -/
def computeEnd (text : List Char) (chunk_size start : Nat) : Nat :=
  let e := start + chunk_size
  if e < text.length then
    let b1 := pyRfind text '.' start e
    let b2 := if b1 = -1 ∨ b1 < (start : Int) + 100 then pyRfind text ' ' start e else b1
    if ¬ b2 = -1 ∧ (start : Int) < b2 then b2.toNat + 1 else e
  else e

/-- The while loop of _create_chunks, with explicit fuel (the loop itself has no
static bound; fuel sufficiency is proved separately).  Arguments after the
configuration: fuel, window start, next chunk_index. -/
def createChunksAux (text : List Char) (filename : String) (chunk_size overlap : Nat) :
    Nat → Nat → Nat → List Chunk
  | 0, _, _ => []
  | fuel + 1, start, idx =>
    if start < text.length then
      if pyStrip (pySlice text start (computeEnd text chunk_size start)) = [] then
        if text.length ≤ computeEnd text chunk_size start then []
        else createChunksAux text filename chunk_size overlap fuel
          (max (start + 1) (computeEnd text chunk_size start - overlap)) idx
      else
        if text.length ≤ computeEnd text chunk_size start then
          [⟨pyStrip (pySlice text start (computeEnd text chunk_size start)),
            mkChunkMeta filename idx start (computeEnd text chunk_size start)⟩]
        else
          ⟨pyStrip (pySlice text start (computeEnd text chunk_size start)),
            mkChunkMeta filename idx start (computeEnd text chunk_size start)⟩ ::
          createChunksAux text filename chunk_size overlap fuel
            (max (start + 1) (computeEnd text chunk_size start - overlap)) (idx + 1)
    else []

/-- DocumentProcessor._create_chunks: empty result on whitespace-only text, else run
the window loop from position 0 with fuel equal to the text length. -/
def _create_chunks (text : List Char) (filename : String) (chunk_size overlap : Nat) :
    List Chunk :=
  if pyStrip text = [] then [] else
  createChunksAux text filename chunk_size overlap text.length 0 0

/-- The chunk_index metadata entry of a chunk. -/
def chunkIdx (c : Chunk) : Option PyVal := dictGet c.metadata "chunk_index"

/-! ## hashlib.md5, embedded from the MD5 algorithm (RFC 1321).
Words are Nat kept below 2^32 by explicit reduction. -/

/-- The MD5 per-round left-rotation amounts. -/
def md5sTable : List Nat :=
  [7, 12, 17, 22, 7, 12, 17, 22, 7, 12, 17, 22, 7, 12, 17, 22,
   5, 9, 14, 20, 5, 9, 14, 20, 5, 9, 14, 20, 5, 9, 14, 20,
   4, 11, 16, 23, 4, 11, 16, 23, 4, 11, 16, 23, 4, 11, 16, 23,
   6, 10, 15, 21, 6, 10, 15, 21, 6, 10, 15, 21, 6, 10, 15, 21]

/-- The MD5 sine-derived additive constants. -/
def md5KTable : List Nat :=
  [0xd76aa478, 0xe8c7b756, 0x242070db, 0xc1bdceee,
   0xf57c0faf, 0x4787c62a, 0xa8304613, 0xfd469501,
   0x698098d8, 0x8b44f7af, 0xffff5bb1, 0x895cd7be,
   0x6b901122, 0xfd987193, 0xa679438e, 0x49b40821,
   0xf61e2562, 0xc040b340, 0x265e5a51, 0xe9b6c7aa,
   0xd62f105d, 0x02441453, 0xd8a1e681, 0xe7d3fbc8,
   0x21e1cde6, 0xc33707d6, 0xf4d50d87, 0x455a14ed,
   0xa9e3e905, 0xfcefa3f8, 0x676f02d9, 0x8d2a4c8a,
   0xfffa3942, 0x8771f681, 0x6d9d6122, 0xfde5380c,
   0xa4beea44, 0x4bdecfa9, 0xf6bb4b60, 0xbebfbc70,
   0x289b7ec6, 0xeaa127fa, 0xd4ef3085, 0x04881d05,
   0xd9d4d039, 0xe6db99e5, 0x1fa27cf8, 0xc4ac5665,
   0xf4292244, 0x432aff97, 0xab9423a7, 0xfc93a039,
   0x655b59c3, 0x8f0ccc92, 0xffeff47d, 0x85845dd1,
   0x6fa87e4f, 0xfe2ce6e0, 0xa3014314, 0x4e0811a1,
   0xf7537e82, 0xbd3af235, 0x2ad7d2bb, 0xeb86d391]

/-- Reduce to a 32-bit word. -/
def w32 (x : Nat) : Nat := x % 2 ^ 32

/-- 32-bit complement. -/
def bnot32 (x : Nat) : Nat := x ^^^ 0xFFFFFFFF

/-- 32-bit left rotation (argument assumed below 2^32, 0 < n < 32). -/
def rotl32 (x n : Nat) : Nat := w32 (x <<< n) ||| (x >>> (32 - n))

/-- The MD5 round mixing function, by round index. -/
def md5F (i b c d : Nat) : Nat :=
  if i < 16 then (b &&& c) ||| (bnot32 b &&& d)
  else if i < 32 then (d &&& b) ||| (bnot32 d &&& c)
  else if i < 48 then b ^^^ c ^^^ d
  else c ^^^ (b ||| bnot32 d)

/-- The MD5 message-word schedule. -/
def md5g (i : Nat) : Nat :=
  if i < 16 then i
  else if i < 32 then (5 * i + 1) % 16
  else if i < 48 then (3 * i + 5) % 16
  else (7 * i) % 16

/-- Little-endian 32-bit word number g of a 64-byte block. -/
def le32word (block : List Nat) (g : Nat) : Nat :=
  block.getD (4 * g) 0 + 256 * block.getD (4 * g + 1) 0 +
    65536 * block.getD (4 * g + 2) 0 + 16777216 * block.getD (4 * g + 3) 0

/-- The 64 MD5 rounds over one block. -/
def md5Rounds (block : List Nat) (st : Nat × Nat × Nat × Nat) : Nat × Nat × Nat × Nat :=
  (List.range 64).foldl
    (fun st i =>
      let a := st.1; let b := st.2.1; let c := st.2.2.1; let d := st.2.2.2
      let f := w32 (md5F i b c d + a + md5KTable.getD i 0 + le32word block (md5g i))
      (d, w32 (b + rotl32 f (md5sTable.getD i 0)), b, c))
    st

/-- Process one 64-byte block: run the rounds and add the result into the state. -/
def md5Block (st : Nat × Nat × Nat × Nat) (block : List Nat) : Nat × Nat × Nat × Nat :=
  let r := md5Rounds block st
  (w32 (st.1 + r.1), w32 (st.2.1 + r.2.1), w32 (st.2.2.1 + r.2.2.1), w32 (st.2.2.2 + r.2.2.2))

/-- The 8 little-endian bytes of a 64-bit length field. -/
def le64bytes (n : Nat) : List Nat := (List.range 8).map (fun i => n / 2 ^ (8 * i) % 256)

/-- The 4 little-endian bytes of a 32-bit word. -/
def le32bytes (n : Nat) : List Nat := (List.range 4).map (fun i => n / 2 ^ (8 * i) % 256)

/-- MD5 padding: a 0x80 byte, zeros to 56 mod 64, then the bit length, little-endian. -/
def md5pad (msg : List Nat) : List Nat :=
  let zeros := (64 + 56 - ((msg.length + 1) % 64)) % 64
  msg ++ 0x80 :: (List.replicate zeros 0 ++ le64bytes (msg.length * 8))

/-- Split a list into consecutive pieces of n elements, fuel-indexed so the kernel
can evaluate it (fuel at least the list length suffices, see listChunksAux_fuel). -/
def listChunksAux (n : Nat) : Nat → List α → List (List α)
  | _, [] => []
  | 0, _ :: _ => []
  | fuel + 1, x :: xs => (x :: xs.take (n - 1)) :: listChunksAux n fuel (xs.drop (n - 1))

/-- Split a list into consecutive pieces of n elements (n treated as at least 1). -/
def listChunks (n : Nat) (l : List α) : List (List α) :=
  listChunksAux n l.length l

/-- hashlib.md5(msg).digest(): the 16 digest bytes of a byte string. -/
def md5 (msg : List Nat) : List Nat :=
  let st := (listChunks 64 (md5pad msg)).foldl md5Block
    (0x67452301, 0xefcdab89, 0x98badcfe, 0x10325476)
  le32bytes st.1 ++ le32bytes st.2.1 ++ le32bytes st.2.2.1 ++ le32bytes st.2.2.2

/-- Python str.encode(): the UTF-8 bytes of a string. -/
def utf8Bytes (l : List Char) : List Nat :=
  ((l.map String.utf8EncodeChar).flatten).map (fun b => b.toNat)

/-! ## LLMService._create_hash_embedding and VectorStoreSupabase._create_simple_embedding -/

/-- The accumulation loop of the hash embedding: for each i below dim / 4, take the
first 4 bytes of md5(f"(text)_(i)".encode()) and map each byte b to
(b - 127.5) / 127.5. -/
def hashExpand (text : List Char) (dim : Nat) : List ℚ :=
  ((List.range (dim / 4)).map (fun i =>
    ((md5 (utf8Bytes (text ++ '_' :: (Nat.repr i).toList))).take 4).map
      (fun (b : Nat) => ((b : ℚ) - 127.5) / 127.5))).flatten

/-- LLMService._create_hash_embedding: run the accumulation loop, pad with 0.0 while
shorter than dim, truncate to exactly dim. -/
def _create_hash_embedding (text : List Char) (dim : Nat) : List ℚ :=
  (hashExpand text dim ++
    List.replicate (dim - (hashExpand text dim).length) 0).take dim

/-- VectorStoreSupabase._create_simple_embedding: textually the same algorithm as
LLMService._create_hash_embedding. -/
def _create_simple_embedding (text : List Char) (dim : Nat) : List ℚ :=
  (hashExpand text dim ++
    List.replicate (dim - (hashExpand text dim).length) 0).take dim

/-! ## LLMService.generate_embeddings -/

/-- The observable outcome of one remote chat-completion call in generate_embeddings:
either a response whose parsed content may itself be unavailable (the inner try), or an
exception escaping the call (caught only by the outer try around the whole loop). -/
inductive RemoteResult where
  | ok (content : Option (List Char))
  | err
deriving DecidableEq

/-- The per-text loop of generate_embeddings: on a response, the parsed content is bound
and then discarded, and the hash embedding of the text is appended (the inner except
branch appends the same hash embedding); an exception aborts the loop (none). -/
def generate_embeddings_go (remote : List Char → RemoteResult) :
    List (List Char) → Option (List (List ℚ))
  | [] => some []
  | t :: ts =>
    match remote t with
    | RemoteResult.err => none
    | RemoteResult.ok _ =>
      (generate_embeddings_go remote ts).map (fun rest => _create_hash_embedding t 384 :: rest)

/-- LLMService.generate_embeddings: run the loop; if an exception escaped it, the outer
except rebuilds the whole batch from hash embeddings. -/
def generate_embeddings (remote : List Char → RemoteResult) (texts : List (List Char)) :
    List (List ℚ) :=
  match generate_embeddings_go remote texts with
  | some l => l
  | none => texts.map (fun t => _create_hash_embedding t 384)

/-- The specified behavior of the embedding provider: the deterministic fallback applied
to every text in order. -/
def fallback_embed_all (texts : List (List Char)) : List (List ℚ) :=
  texts.map (fun t => _create_hash_embedding t 384)

/-! ## Vector arithmetic (numpy operations over exact rationals).
np.linalg.norm involves a square root, which has no exact rational value; it is
modelled as an explicit function parameter nrm.  NormSpec states the only property
of the Euclidean norm the code relies on: it vanishes exactly on zero vectors. -/

/-- np.dot of two equal-length vectors. -/
def dot (a b : List ℚ) : ℚ := (a.zipWith (fun x y => x * y) b).sum

/-- The sum of squares of a vector (the square of its Euclidean norm). -/
def sumSq (v : List ℚ) : ℚ := (v.map (fun x => x * x)).sum

/-- Characterization of np.linalg.norm used by the proofs: a norm is zero exactly on
vectors whose sum of squares is zero. -/
def NormSpec (nrm : List ℚ → ℚ) : Prop := ∀ v, nrm v = 0 ↔ sumSq v = 0

/-- A concrete executable function satisfying NormSpec, used to instantiate theorems. -/
def nrm0 (v : List ℚ) : ℚ := if sumSq v = 0 then 0 else 1

/-! ## VectorStoreSupabase (vector_store_supabase.py) -/

/-- One row of the chunks table: inserted by add_documents, read back by search. -/
structure ChunkRow where
  document_id : String
  chunk_index : Nat
  content : List Char
  embedding : List ℚ
deriving DecidableEq

/-- A scored search result of VectorStoreSupabase.search: the dict with keys
content, metadata, similarity. -/
structure ScoredRow where
  content : List Char
  metadata : PyDict
  similarity : ℚ
deriving DecidableEq

/-- The documents-table lookup docs_map.get(document_id, ""): the docs_map dict is
built by assignment in iteration order, so the last row with a given id wins. -/
def docsLookup (docs : List (String × String)) (did : String) : String :=
  ((docs.reverse.find? (fun p => p.1 = did)).map (fun p => p.2)).getD ""

/-- The per-chunk body of the search loop: skip empty embeddings; a zero-norm
embedding gets similarity 0.0, otherwise the embedding is normalized and dotted
with the normalized query; the result dict carries keys filename and chunk_id. -/
def scoreChunk (nrm : List ℚ → ℚ) (docs : List (String × String)) (qn : List ℚ)
    (c : ChunkRow) : Option ScoredRow :=
  if c.embedding.length = 0 then none
  else
    let emb_norm := nrm c.embedding
    let similarity :=
      if emb_norm = 0 then 0
      else dot qn (c.embedding.map (fun x => x / emb_norm))
    some ⟨c.content,
      [("filename", PyVal.s (docsLookup docs c.document_id)),
       ("chunk_id", PyVal.n c.chunk_index)],
      similarity⟩

/-- Descending order on scored rows (Python sorted with reverse=True on similarity). -/
def simGE (a b : ScoredRow) : Prop := b.similarity ≤ a.similarity

instance : DecidableRel simGE := fun a b =>
  inferInstanceAs (Decidable (b.similarity ≤ a.similarity))

instance : IsTotal ScoredRow simGE := ⟨fun a b => le_total b.similarity a.similarity⟩

instance : IsTrans ScoredRow simGE := ⟨fun _ _ _ h1 h2 => le_trans h2 h1⟩

/-- The batched scoring loop of search: score each batch of 50 chunks, and when more
than top_k * 3 candidates accumulate, keep only the top_k * 2 best. -/
def supaSearchLoop (nrm : List ℚ → ℚ) (docs : List (String × String)) (qn : List ℚ)
    (top_k : Nat) (scored : List ScoredRow) : List (List ChunkRow) → List ScoredRow
  | [] => scored
  | batch :: rest =>
    supaSearchLoop nrm docs qn top_k
      (if top_k * 3 < (scored ++ batch.filterMap (scoreChunk nrm docs qn)).length then
        (List.insertionSort simGE
          (scored ++ batch.filterMap (scoreChunk nrm docs qn))).take (top_k * 2)
      else scored ++ batch.filterMap (scoreChunk nrm docs qn))
      rest

/-- The normalized query embedding of search: the hash fallback embedding divided by
its own norm, with no zero guard. -/
def supaQueryVec (nrm : List ℚ → ℚ) (query : List Char) : List ℚ :=
  (_create_simple_embedding query 384).map
    (fun x => x / nrm (_create_simple_embedding query 384))

/-- VectorStoreSupabase.search: fetch at most 1000 chunk rows; empty table returns [];
otherwise embed the query with the hash fallback, normalize it (unguarded division by
its norm), score all chunks in batches of 50, sort descending and return the first
top_k. -/
def supaSearch (nrm : List ℚ → ℚ) (chunksTable : List ChunkRow)
    (docsTable : List (String × String)) (query : List Char) (top_k : Nat) :
    List ScoredRow :=
  if chunksTable.take 1000 = [] then []
  else
    (List.insertionSort simGE
      (supaSearchLoop nrm docsTable (supaQueryVec nrm query) top_k []
        (listChunks 50 (chunksTable.take 1000)))).take top_k

/-- Every norm value that appears as a divisor during VectorStoreSupabase.search:
the query-embedding norm, and the norm of each scored nonempty chunk embedding that
passed the zero test (the zero branch assigns similarity 0.0 without dividing). -/
def supa_search_divisors (nrm : List ℚ → ℚ) (chunksTable : List ChunkRow)
    (query : List Char) : List ℚ :=
  if chunksTable.take 1000 = [] then []
  else
    nrm (_create_simple_embedding query 384) ::
      (chunksTable.take 1000).filterMap (fun c =>
        if c.embedding.length = 0 then none
        else if nrm c.embedding = 0 then none else some (nrm c.embedding))

/-- The Supabase-backed store state: the documents table (id, filename) and the
chunks table. -/
structure SupaState where
  documents : List (String × String)
  chunks : List ChunkRow
deriving DecidableEq

/-- The empty Supabase state. -/
def emptySupa : SupaState := ⟨[], []⟩

/-- The chunk-text size limiting in add_documents: texts over 1000 characters are cut
and marked. -/
def supaChunkText (c : Chunk) : List Char :=
  if 1000 < c.content.length then c.content.take 1000 ++ "...[truncated]".toList
  else c.content

/-- The divisor add_documents actually uses for one embedding row after the
norms[norms == 0] = 1.0 guard. -/
def zeroGuardNorm (nrm : List ℚ → ℚ) (r : List ℚ) : ℚ :=
  if nrm r = 0 then 1 else nrm r

/-- The raw embeddings add_documents computes for the chunk texts: through
LLMService.generate_embeddings in batches of 10 when an llm_service is supplied,
otherwise through the local hash fallback. -/
def supa_embeddings (llm : Option (List Char → RemoteResult))
    (chunk_texts : List (List Char)) : List (List ℚ) :=
  match llm with
  | some remote => ((listChunks 10 chunk_texts).map (generate_embeddings remote)).flatten
  | none => chunk_texts.map (fun t => _create_simple_embedding t 384)

/-- VectorStoreSupabase.add_documents: insert the document row, embed the
size-limited chunk texts, normalize with the zero-guarded norms, and insert one
chunks-table row per chunk with chunk_index equal to its position. -/
def supa_add_documents (nrm : List ℚ → ℚ) (llm : Option (List Char → RemoteResult))
    (st : SupaState) (chunks : List Chunk) (doc_id filename : String) : SupaState :=
  let chunk_texts := chunks.map supaChunkText
  let embs := supa_embeddings llm chunk_texts
  let normed := embs.map (fun r => r.map (fun x => x / zeroGuardNorm nrm r))
  let rows := (chunk_texts.zip normed).enum.map
    (fun p => ChunkRow.mk doc_id p.1 p.2.1 p.2.2)
  ⟨st.documents ++ [(doc_id, filename)], st.chunks ++ rows⟩

/-- Every norm value that appears as a divisor during
VectorStoreSupabase.add_documents. -/
def supa_add_divisors (nrm : List ℚ → ℚ) (llm : Option (List Char → RemoteResult))
    (chunks : List Chunk) : List ℚ :=
  (supa_embeddings llm (chunks.map supaChunkText)).map (zeroGuardNorm nrm)

/-! ## VectorStore (vector_store.py, the in-memory FAISS variant) -/

/-- Python dict update d[k] = v (or a literal entry in a double-splat merge): replace
in place when the key exists, else append. -/
def dictSet (d : PyDict) (k : String) (v : PyVal) : PyDict :=
  match d with
  | [] => [(k, v)]
  | p :: rest => if p.1 = k then (k, v) :: rest else p :: dictSet rest k v

/-- One stored document record of the in-memory store. -/
structure VSDoc where
  content : List Char
  metadata : PyDict
deriving DecidableEq

/-- A search result of VectorStore.search: the stored record plus its score. -/
structure VSResult where
  content : List Char
  metadata : PyDict
  score : ℚ
deriving DecidableEq

/-- The in-memory store state: the FAISS index contents, the metadata records, and the
kept embeddings list. -/
structure VSState where
  index : List (List ℚ)
  documents : List VSDoc
  embeddings : List (List ℚ)
deriving DecidableEq

/-- The empty in-memory store. -/
def emptyVS : VSState := ⟨[], [], []⟩

/-- VectorStore.add_documents: encode the chunk contents with the sentence-transformer
model (a parameter here), normalize each row by its own norm with no zero guard, add
the rows to the index, and append metadata records merging the chunk metadata with
doc_id, filename and vector_id. -/
def vs_add_documents (nrm : List ℚ → ℚ) (encode : List Char → List ℚ) (st : VSState)
    (chunks : List Chunk) (doc_id filename : String) : VSState :=
  let embs := chunks.map (fun c => encode c.content)
  let normed := embs.map (fun r => r.map (fun x => x / nrm r))
  let docs := chunks.enum.map (fun p =>
    VSDoc.mk p.2.content
      (dictSet (dictSet (dictSet p.2.metadata "doc_id" (PyVal.s doc_id))
        "filename" (PyVal.s filename)) "vector_id" (PyVal.n (st.documents.length + p.1))))
  ⟨st.index ++ normed, st.documents ++ docs, st.embeddings ++ normed⟩

/-- Every norm value VectorStore.add_documents divides by (one per encoded chunk,
with no guard against zero). -/
def vs_add_divisors (nrm : List ℚ → ℚ) (encode : List Char → List ℚ)
    (chunks : List Chunk) : List ℚ :=
  chunks.map (fun c => nrm (encode c.content))

/-- Descending order on (score, index) pairs returned by the FAISS index. -/
def pairGE (a b : ℚ × Nat) : Prop := b.1 ≤ a.1

instance : DecidableRel pairGE := fun a b => inferInstanceAs (Decidable (b.1 ≤ a.1))

instance : IsTotal (ℚ × Nat) pairGE := ⟨fun a b => le_total b.1 a.1⟩

instance : IsTrans (ℚ × Nat) pairGE := ⟨fun _ _ _ h1 h2 => le_trans h2 h1⟩

/-- faiss.IndexFlatIP.search: the k highest inner products with the query, in
descending order, paired with their vector indices. -/
def faissTopK (index : List (List ℚ)) (q : List ℚ) (k : Nat) : List (ℚ × Nat) :=
  (List.insertionSort pairGE (index.enum.map (fun p => (dot q p.2, p.1)))).take k

/-- The result-collection loop of VectorStore.search.  For each hit with a valid
index, the matching record is copied and its score attached; the debug print then
subscripts metadata["filename"] and metadata["chunk_id"], so a record without either
key raises KeyError out of search. -/
def vs_collect (documents : List VSDoc) : List (ℚ × Nat) → Except String (List VSResult)
  | [] => Except.ok []
  | hit :: rest =>
    if h : hit.2 < documents.length then
      let doc := documents.get ⟨hit.2, h⟩
      match dictGet doc.metadata "filename", dictGet doc.metadata "chunk_id" with
      | some _, some _ =>
        (vs_collect documents rest).map (fun l => ⟨doc.content, doc.metadata, hit.1⟩ :: l)
      | _, _ => Except.error "KeyError"
    else vs_collect documents rest

/-- The normalized query embedding of VectorStore.search: the encoded query divided
by its own norm, with no zero guard. -/
def vsQueryVec (nrm : List ℚ → ℚ) (encode : List Char → List ℚ)
    (query : List Char) : List ℚ :=
  (encode query).map (fun x => x / nrm (encode query))

/-- VectorStore.search: empty index returns []; otherwise encode and normalize the
query (unguarded division by its norm), take the top min(top_k, ntotal) inner-product
hits, collect the records, and keep those with score strictly above 0.1. -/
def vs_search (nrm : List ℚ → ℚ) (encode : List Char → List ℚ) (st : VSState)
    (query : List Char) (top_k : Nat) : Except String (List VSResult) :=
  if st.index.length = 0 then Except.ok []
  else
    (vs_collect st.documents
      (faissTopK st.index (vsQueryVec nrm encode query)
        (min top_k st.index.length))).map
      (fun results => results.filter (fun r => (0.1 : ℚ) < r.score))

/-- Every norm value VectorStore.search divides by (the query-embedding norm, with no
guard against zero; not reached when the index is empty). -/
def vs_search_divisors (nrm : List ℚ → ℚ) (encode : List Char → List ℚ) (st : VSState)
    (query : List Char) : List ℚ :=
  if st.index.length = 0 then [] else [nrm (encode query)]

/-! ## VectorStore.load_index -/

/-- The durable artifacts load_index reads: existence and readability of the .faiss
and .pkl files, and their contents when readable. -/
structure FSModel where
  faiss_exists : Bool
  pkl_exists : Bool
  faiss_ok : Bool
  pkl_ok : Bool
  faiss_index : List (List ℚ)
  pkl_documents : List VSDoc
  pkl_embeddings : List (List ℚ)

/-- VectorStore.load_index: when both files exist, read them (a read failure resets
the store to empty and re-raises); when either file is missing, print a note and
return with the state untouched. -/
def vs_load_index (fs : FSModel) (st : VSState) : VSState × Except String Unit :=
  if fs.faiss_exists && fs.pkl_exists then
    if fs.faiss_ok && fs.pkl_ok then
      (⟨fs.faiss_index, fs.pkl_documents, fs.pkl_embeddings⟩, Except.ok ())
    else (emptyVS, Except.error "load failed")
  else (st, Except.ok ())

/-! ## Lemmas about the segmenter -/

theorem createChunksAux_fuel_succ (text : List Char) (filename : String)
    (chunk_size overlap : Nat) :
    ∀ fuel s i, text.length - s ≤ fuel →
      createChunksAux text filename chunk_size overlap (fuel + 1) s i =
        createChunksAux text filename chunk_size overlap fuel s i := by
  intro fuel
  induction fuel with
  | zero =>
    intro s i h
    have hs : ¬ s < text.length := by omega
    simp [createChunksAux, hs]
  | succ n ih =>
    intro s i h
    by_cases hs : s < text.length
    · have hrec : ∀ j, createChunksAux text filename chunk_size overlap (n + 1)
          (max (s + 1) (computeEnd text chunk_size s - overlap)) j =
          createChunksAux text filename chunk_size overlap n
            (max (s + 1) (computeEnd text chunk_size s - overlap)) j := by
        intro j
        apply ih
        have : s + 1 ≤ max (s + 1) (computeEnd text chunk_size s - overlap) :=
          le_max_left _ _
        omega
      conv_lhs => rw [createChunksAux]
      conv_rhs => rw [createChunksAux]
      simp only [hs, if_true]
      split_ifs <;> first | rfl | rw [hrec]
    · conv_lhs => rw [createChunksAux]
      conv_rhs => rw [createChunksAux]
      simp [hs]

theorem createChunksAux_fuel_add (text : List Char) (filename : String)
    (chunk_size overlap : Nat) :
    ∀ k fuel s i, text.length - s ≤ fuel →
      createChunksAux text filename chunk_size overlap (fuel + k) s i =
        createChunksAux text filename chunk_size overlap fuel s i := by
  intro k
  induction k with
  | zero => intro fuel s i _; rfl
  | succ n ih =>
    intro fuel s i h
    have h2 : text.length - s ≤ fuel + n := by omega
    calc createChunksAux text filename chunk_size overlap (fuel + (n + 1)) s i
        = createChunksAux text filename chunk_size overlap ((fuel + n) + 1) s i := by
          ring_nf
      _ = createChunksAux text filename chunk_size overlap (fuel + n) s i :=
          createChunksAux_fuel_succ text filename chunk_size overlap (fuel + n) s i h2
      _ = createChunksAux text filename chunk_size overlap fuel s i := ih fuel s i h

theorem createChunksAux_content (text : List Char) (filename : String)
    (chunk_size overlap : Nat) :
    ∀ fuel s i c, c ∈ createChunksAux text filename chunk_size overlap fuel s i →
      ¬ c.content = [] := by
  intro fuel
  induction fuel with
  | zero => intro s i c h; simp [createChunksAux] at h
  | succ n ih =>
    intro s i c h
    rw [createChunksAux] at h
    by_cases hs : s < text.length
    · simp only [hs, if_true] at h
      split_ifs at h with h1 h2 h3
      · simp at h
      · exact ih _ _ c h
      · simp at h
        rw [h]
        exact h1
      · rcases List.mem_cons.mp h with h4 | h4
        · rw [h4]
          exact h1
        · exact ih _ _ c h4
    · simp [hs] at h

theorem chunkIdx_mk (ct : List Char) (filename : String) (i s e : Nat) :
    chunkIdx ⟨ct, mkChunkMeta filename i s e⟩ = some (PyVal.n i) := rfl

theorem createChunksAux_indices (text : List Char) (filename : String)
    (chunk_size overlap : Nat) :
    ∀ fuel s i,
      (createChunksAux text filename chunk_size overlap fuel s i).map chunkIdx =
        (List.range' i
          ((createChunksAux text filename chunk_size overlap fuel s i).length)).map
          (fun j => some (PyVal.n j)) := by
  intro fuel
  induction fuel with
  | zero => intro s i; simp [createChunksAux]
  | succ n ih =>
    intro s i
    rw [createChunksAux]
    by_cases hs : s < text.length
    · simp only [hs, if_true]
      split_ifs with h1 h2 h3
      · simp
      · exact ih _ i
      · simp [chunkIdx_mk, List.range']
      · simp only [List.map_cons, List.length_cons, List.range', chunkIdx_mk]
        rw [ih _ (i + 1)]
    · simp [hs]

/-- Claim C1: for every text and configuration with chunk_size > overlap >= 0, the
segmentation loop of _create_chunks terminates: the window start strictly increases
each iteration (the next start is max(start + 1, end - overlap)), so text.length
iterations of fuel always suffice — any larger fuel computes the same result. -/
theorem c1_segmentation_terminates (text : List Char) (filename : String)
    (chunk_size overlap : Nat) (hov : overlap < chunk_size) :
    (∀ s e, s < max (s + 1) (e - overlap)) ∧
    (∀ fuel, text.length ≤ fuel →
      createChunksAux text filename chunk_size overlap fuel 0 0 =
        createChunksAux text filename chunk_size overlap text.length 0 0) := by
  constructor
  · intro s e
    exact lt_of_lt_of_le (Nat.lt_succ_self s) (le_max_left _ _)
  · intro fuel hf
    have hk : fuel = text.length + (fuel - text.length) := by omega
    rw [hk]
    exact createChunksAux_fuel_add text filename chunk_size overlap
      (fuel - text.length) text.length 0 0 (by omega)

theorem c1_witness :
    (1 < 5) ∧
    ((∀ s e, s < max (s + 1) (e - 1)) ∧
    (∀ fuel, ("ab cd".toList).length ≤ fuel →
      createChunksAux "ab cd".toList "f" 5 1 fuel 0 0 =
        createChunksAux "ab cd".toList "f" 5 1 ("ab cd".toList).length 0 0)) :=
  ⟨by decide, c1_segmentation_terminates "ab cd".toList "f" 5 1 (by decide)⟩

/-- Claim C2: for every text and configuration with chunk_size > overlap >= 0, every
chunk returned by _create_chunks has non-empty content, and the chunk_index metadata
values form the contiguous range 0, 1, ..., n-1 in emission order. -/
theorem c2_nonempty_and_contiguous_indices (text : List Char) (filename : String)
    (chunk_size overlap : Nat) (hov : overlap < chunk_size) :
    (∀ c ∈ _create_chunks text filename chunk_size overlap, ¬ c.content = []) ∧
    (_create_chunks text filename chunk_size overlap).map chunkIdx =
      (List.range ((_create_chunks text filename chunk_size overlap).length)).map
        (fun j => some (PyVal.n j)) := by
  unfold _create_chunks
  split_ifs with h
  · simp
  · refine ⟨fun c hc => createChunksAux_content text filename chunk_size overlap _ _ _ c hc, ?_⟩
    rw [List.range_eq_range']
    exact createChunksAux_indices text filename chunk_size overlap text.length 0 0

theorem c2_witness :
    (1 < 4) ∧
    ((∀ c ∈ _create_chunks "ab cd".toList "f" 4 1, ¬ c.content = []) ∧
    (_create_chunks "ab cd".toList "f" 4 1).map chunkIdx =
      (List.range ((_create_chunks "ab cd".toList "f" 4 1).length)).map
        (fun j => some (PyVal.n j))) :=
  ⟨by decide, c2_nonempty_and_contiguous_indices "ab cd".toList "f" 4 1 (by decide)⟩

/-- Claim C9: whitespace-only text (including the empty string) yields zero chunks,
and non-whitespace text strictly shorter than chunk_size yields exactly one chunk
whose content is the trimmed text. -/
theorem c9_edge_cases (text : List Char) (filename : String) (chunk_size overlap : Nat) :
    (pyStrip text = [] → _create_chunks text filename chunk_size overlap = []) ∧
    (¬ pyStrip text = [] → text.length < chunk_size →
      _create_chunks text filename chunk_size overlap =
        [⟨pyStrip text, mkChunkMeta filename 0 0 chunk_size⟩]) := by
  constructor
  · intro h
    simp [_create_chunks, h]
  · intro h hlen
    have htext : ¬ text = [] := by
      intro he
      exact h (by simp [he, pyStrip])
    have hlen0 : 0 < text.length := List.length_pos.mpr htext
    have hce : computeEnd text chunk_size 0 = chunk_size := by
      unfold computeEnd
      have hno : ¬ chunk_size < text.length := by omega
      simp [hno]
    have hslice : pySlice text 0 chunk_size = text := by
      unfold pySlice
      simp [List.take_of_length_le (le_of_lt hlen)]
    obtain ⟨m, hm⟩ : ∃ m, text.length = m + 1 := ⟨text.length - 1, by omega⟩
    unfold _create_chunks
    simp only [h, if_false]
    rw [hm, createChunksAux]
    have hle : text.length ≤ chunk_size := le_of_lt hlen
    simp [hlen0, hslice, h, hle, hce]

/-! ## Lemmas about the hash embedding -/

theorem le32bytes_lt (x : Nat) : ∀ b ∈ le32bytes x, b < 256 := by
  intro b hb
  simp only [le32bytes, List.mem_map, List.mem_range] at hb
  obtain ⟨i, _, hb2⟩ := hb
  rw [← hb2]
  exact Nat.mod_lt _ (by norm_num)

theorem md5_bytes_lt (msg : List Nat) : ∀ b ∈ md5 msg, b < 256 := by
  intro b hb
  simp only [md5, List.mem_append] at hb
  rcases hb with ((h | h) | h) | h <;> exact le32bytes_lt _ b h

theorem md5_length (msg : List Nat) : (md5 msg).length = 16 := by
  simp [md5, le32bytes]

theorem hash_component_bounds {b : Nat} (hb : b < 256) :
    (-1 : ℚ) ≤ ((b : ℚ) - 127.5) / 127.5 ∧ ((b : ℚ) - 127.5) / 127.5 ≤ 1 := by
  have hb2 : (b : ℚ) ≤ 255 := by exact_mod_cast Nat.lt_succ_iff.mp hb
  have hb0 : (0 : ℚ) ≤ (b : ℚ) := Nat.cast_nonneg b
  constructor
  · rw [le_div_iff₀ (by norm_num)]
    linarith
  · rw [div_le_one (by norm_num)]
    linarith

theorem hash_component_ne {b : Nat} : ¬ ((b : ℚ) - 127.5) / 127.5 = 0 := by
  intro hc
  rw [div_eq_zero_iff] at hc
  rcases hc with hc | hc
  · have h255 : ((2 * b : Nat) : ℚ) = 255 := by push_cast; linarith
    have : (2 * b : Nat) = 255 := by exact_mod_cast h255
    omega
  · norm_num at hc

theorem _create_hash_embedding_length (t : List Char) (d : Nat) :
    (_create_hash_embedding t d).length = d := by
  unfold _create_hash_embedding
  simp only [List.length_take, List.length_append, List.length_replicate]
  omega

theorem hashExpand_mem (t : List Char) (d : Nat) :
    ∀ x ∈ hashExpand t d, (-1 : ℚ) ≤ x ∧ x ≤ 1 := by
  intro x hx
  simp only [hashExpand, List.mem_flatten, List.mem_map, List.mem_range] at hx
  obtain ⟨l, ⟨i, _, hl⟩, hxl⟩ := hx
  subst hl
  simp only [List.mem_map] at hxl
  obtain ⟨b, hb, hxb⟩ := hxl
  subst hxb
  exact hash_component_bounds (md5_bytes_lt _ b (List.mem_of_mem_take hb))

theorem _create_hash_embedding_mem (t : List Char) (d : Nat) :
    ∀ x ∈ _create_hash_embedding t d, (-1 : ℚ) ≤ x ∧ x ≤ 1 := by
  intro x hx
  unfold _create_hash_embedding at hx
  have hx2 := List.mem_of_mem_take hx
  rcases List.mem_append.mp hx2 with h1 | h1
  · exact hashExpand_mem t d x h1
  · rw [List.eq_of_mem_replicate h1]
    norm_num

theorem sumSq_cons (x : ℚ) (r : List ℚ) : sumSq (x :: r) = x * x + sumSq r := by
  simp [sumSq]

theorem sumSq_nonneg (v : List ℚ) : 0 ≤ sumSq v := by
  induction v with
  | nil => simp [sumSq]
  | cons x r ih =>
    rw [sumSq_cons]
    have := mul_self_nonneg x
    linarith

theorem md5_head (msg : List Nat) :
    ∃ (b : Nat) (rest : List Nat), md5 msg = b :: rest ∧ b < 256 := by
  rcases h : md5 msg with _ | ⟨b, rest⟩
  · have := md5_length msg
    rw [h] at this
    simp at this
  · exact ⟨b, rest, rfl, md5_bytes_lt msg b (by rw [h]; exact List.mem_cons_self b rest)⟩

theorem hashEmb_head (t : List Char) :
    ∃ (b : Nat) (rest : List ℚ),
      _create_hash_embedding t 384 = (((b : ℚ) - 127.5) / 127.5) :: rest ∧
      b < 256 := by
  obtain ⟨b, r16, hmd, hb⟩ := md5_head (utf8Bytes (t ++ '_' :: (Nat.repr 0).toList))
  refine ⟨b, ?_, ?_, hb⟩
  · exact (hashExpand t 384).tail ++
      List.replicate (384 - (hashExpand t 384).length) 0 |>.take 383
  · have hrange : List.range (384 / 4) = 0 :: List.range' 1 95 := by decide
    have hexp : ∃ tl, hashExpand t 384 = (((b : ℚ) - 127.5) / 127.5) :: tl := by
      unfold hashExpand
      rw [hrange]
      simp only [List.map_cons, hmd, List.take_cons, List.flatten_cons, List.map_cons]
      exact ⟨_, rfl⟩
    obtain ⟨tl, htl⟩ := hexp
    unfold _create_hash_embedding
    rw [htl]
    simp only [List.cons_append, List.take_cons]
    constructor

theorem sumSq_hashEmb_ne (t : List Char) :
    ¬ sumSq (_create_hash_embedding t 384) = 0 := by
  obtain ⟨b, rest, heq, _⟩ := hashEmb_head t
  rw [heq, sumSq_cons]
  have h1 := @hash_component_ne b
  have h2 : 0 < ((b : ℚ) - 127.5) / 127.5 * (((b : ℚ) - 127.5) / 127.5) :=
    lt_of_le_of_ne (mul_self_nonneg _) (fun hc => h1 (by
      rcases mul_self_eq_zero.mp hc.symm with h
      exact h))
  have h3 := sumSq_nonneg rest
  intro hc
  linarith

/-- Claim C3: for every text and dimension, the fallback hash embedding has exactly
dim components, is deterministic, is defined for every text including the empty one,
has every component in [-1, 1], and _create_simple_embedding computes the same
function as _create_hash_embedding. -/
theorem c3_hash_embedding_wellformed (t : List Char) (d : Nat) :
    (_create_hash_embedding t d).length = d ∧
    _create_hash_embedding t d = _create_hash_embedding t d ∧
    (∀ x ∈ _create_hash_embedding t d, (-1 : ℚ) ≤ x ∧ x ≤ 1) ∧
    _create_simple_embedding t d = _create_hash_embedding t d :=
  ⟨_create_hash_embedding_length t d, rfl, _create_hash_embedding_mem t d, rfl⟩

/-! ## Lemmas about generate_embeddings -/

theorem generate_embeddings_go_some (remote : List Char → RemoteResult) :
    ∀ texts l, generate_embeddings_go remote texts = some l →
      l = texts.map (fun t => _create_hash_embedding t 384) := by
  intro texts
  induction texts with
  | nil =>
    intro l h
    simp only [generate_embeddings_go, Option.some.injEq] at h
    simp [← h]
  | cons t ts ih =>
    intro l h
    unfold generate_embeddings_go at h
    rcases hr : remote t with c | _ <;> rw [hr] at h
    · rcases Option.map_eq_some'.mp h with ⟨rest, hrest, hl⟩
      rw [← hl, ih rest hrest]
      simp
    · simp at h

/-- Claim C10: LLMService.generate_embeddings returns exactly the hash embedding of
each input text, in order, regardless of the outcome of every remote
chat-completion call: the primary path is observationally equivalent to the
deterministic fallback. -/
theorem c10_generate_embeddings_eq_fallback (remote : List Char → RemoteResult)
    (texts : List (List Char)) :
    generate_embeddings remote texts = fallback_embed_all texts := by
  unfold generate_embeddings fallback_embed_all
  cases hgo : generate_embeddings_go remote texts with
  | some l => exact generate_embeddings_go_some remote texts l hgo
  | none => rfl

/-! ## Lemmas about the Supabase search pipeline -/

theorem listChunksAux_flatten (n : Nat) :
    ∀ (fuel : Nat) (l : List α), l.length ≤ fuel →
      (listChunksAux n fuel l).flatten = l := by
  intro fuel
  induction fuel with
  | zero =>
    intro l h
    cases l with
    | nil => rfl
    | cons x xs => simp at h
  | succ m ih =>
    intro l h
    cases l with
    | nil => rfl
    | cons x xs =>
      rw [listChunksAux]
      simp only [List.flatten_cons]
      rw [ih (xs.drop (n - 1)) (by simp only [List.length_drop]; simp at h; omega)]
      simp only [List.cons_append, List.take_append_drop]

theorem listChunks_flatten (n : Nat) (l : List α) : (listChunks n l).flatten = l :=
  listChunksAux_flatten n l.length l le_rfl

theorem sum_map_length (L : List (List α)) : (L.map List.length).sum = L.flatten.length := by
  induction L with
  | nil => rfl
  | cons x xs ih =>
    simp only [List.map_cons, List.sum_cons, List.flatten_cons, List.length_append, ih]

theorem supaSearchLoop_mem (nrm : List ℚ → ℚ) (docs : List (String × String))
    (qn : List ℚ) (k : Nat) :
    ∀ (batches : List (List ChunkRow)) (scored : List ScoredRow) (x : ScoredRow),
      x ∈ supaSearchLoop nrm docs qn k scored batches →
      x ∈ scored ∨ ∃ c, (∃ b ∈ batches, c ∈ b) ∧ scoreChunk nrm docs qn c = some x := by
  intro batches
  induction batches with
  | nil => intro scored x h; exact Or.inl h
  | cons batch rest ih =>
    intro scored x h
    rw [supaSearchLoop] at h
    rcases ih _ x h with hmem | ⟨c, ⟨b, hb, hcb⟩, hsc⟩
    · have hx2 : x ∈ scored ++ batch.filterMap (scoreChunk nrm docs qn) := by
        split_ifs at hmem with hcond
        · exact (List.mem_insertionSort simGE).mp (List.mem_of_mem_take hmem)
        · exact hmem
      rcases List.mem_append.mp hx2 with h1 | h1
      · exact Or.inl h1
      · obtain ⟨c, hc, hsc⟩ := List.mem_filterMap.mp h1
        exact Or.inr ⟨c, ⟨batch, List.mem_cons_self batch rest, hc⟩, hsc⟩
    · exact Or.inr ⟨c, ⟨b, List.mem_cons_of_mem batch hb, hcb⟩, hsc⟩

theorem supaSearchLoop_length (nrm : List ℚ → ℚ) (docs : List (String × String))
    (qn : List ℚ) (k : Nat) :
    ∀ (batches : List (List ChunkRow)) (scored : List ScoredRow),
      (supaSearchLoop nrm docs qn k scored batches).length ≤
        scored.length + (batches.map List.length).sum := by
  intro batches
  induction batches with
  | nil => intro scored; simp [supaSearchLoop]
  | cons batch rest ih =>
    intro scored
    rw [supaSearchLoop]
    refine le_trans (ih _) ?_
    have hstep : (if k * 3 < (scored ++ batch.filterMap (scoreChunk nrm docs qn)).length
        then (List.insertionSort simGE
          (scored ++ batch.filterMap (scoreChunk nrm docs qn))).take (k * 2)
        else scored ++ batch.filterMap (scoreChunk nrm docs qn)).length ≤
        scored.length + batch.length := by
      have hfm : (batch.filterMap (scoreChunk nrm docs qn)).length ≤ batch.length :=
        List.length_filterMap_le _ _
      split_ifs
      · rw [List.length_take, List.length_insertionSort, List.length_append]
        omega
      · rw [List.length_append]
        omega
    simp only [List.map_cons, List.sum_cons]
    omega

theorem supaSearch_mem (nrm : List ℚ → ℚ) (ct : List ChunkRow)
    (dt : List (String × String)) (q : List Char) (k : Nat) :
    ∀ x ∈ supaSearch nrm ct dt q k,
      ∃ c ∈ ct.take 1000, scoreChunk nrm dt (supaQueryVec nrm q) c = some x := by
  intro x hx
  unfold supaSearch at hx
  split_ifs at hx with hempty
  · simp at hx
  · have hx2 := (List.mem_insertionSort simGE).mp (List.mem_of_mem_take hx)
    rcases supaSearchLoop_mem nrm dt (supaQueryVec nrm q) k _ _ x hx2 with h | ⟨c, ⟨b, hb, hcb⟩, hsc⟩
    · simp at h
    · refine ⟨c, ?_, hsc⟩
      rw [← listChunks_flatten 50 (ct.take 1000)]
      exact List.mem_flatten.mpr ⟨b, hb, hcb⟩

theorem supaSearch_length (nrm : List ℚ → ℚ) (ct : List ChunkRow)
    (dt : List (String × String)) (q : List Char) (k : Nat) :
    (supaSearch nrm ct dt q k).length ≤ min k ct.length := by
  unfold supaSearch
  split_ifs with hempty
  · simp
  · rw [List.length_take, List.length_insertionSort]
    have h1 := supaSearchLoop_length nrm dt (supaQueryVec nrm q) k
      (listChunks 50 (ct.take 1000)) []
    rw [sum_map_length, listChunks_flatten] at h1
    have h2 : (ct.take 1000).length ≤ ct.length := by
      rw [List.length_take]
      exact min_le_right _ _
    simp only [List.length_nil, Nat.zero_add] at h1
    exact min_le_min le_rfl (le_trans h1 h2)

theorem supaSearch_sorted (nrm : List ℚ → ℚ) (ct : List ChunkRow)
    (dt : List (String × String)) (q : List Char) (k : Nat) :
    List.Sorted simGE (supaSearch nrm ct dt q k) := by
  unfold supaSearch
  split_ifs with hempty
  · simp
  · exact List.Pairwise.sublist (List.take_sublist _ _)
      (List.sorted_insertionSort simGE _)

theorem scoreChunk_some_shape (nrm : List ℚ → ℚ) (docs : List (String × String))
    (qn : List ℚ) (c : ChunkRow) (x : ScoredRow)
    (h : scoreChunk nrm docs qn c = some x) :
    x.metadata = [("filename", PyVal.s (docsLookup docs c.document_id)),
      ("chunk_id", PyVal.n c.chunk_index)] := by
  unfold scoreChunk at h
  split_ifs at h
  rw [Option.some.injEq] at h
  rw [← h]

theorem scoreChunk_zero_norm (nrm : List ℚ → ℚ) (docs : List (String × String))
    (qn : List ℚ) (c : ChunkRow) (x : ScoredRow)
    (h0 : nrm c.embedding = 0) (h : scoreChunk nrm docs qn c = some x) :
    x.similarity = 0 := by
  unfold scoreChunk at h
  split_ifs at h
  rw [Option.some.injEq] at h
  rw [← h]
  simp [h0]

theorem normSpec_nrm0 : NormSpec nrm0 := by
  intro v
  unfold nrm0
  split_ifs with h
  · simp [h]
  · simp [h]

/-- _create_simple_embedding and _create_hash_embedding are the same function
(duplicated code in the source). -/
theorem simple_eq_hash : _create_simple_embedding = _create_hash_embedding := rfl

/-- Claim C4 (amended): the Supabase search always returns at most
min(top_k, number of chunk rows) results, in descending similarity order, and an
empty chunks table yields [] without error; the in-memory search returns [] without
error on an empty index.  (On a populated index the in-memory search can instead
raise KeyError, see the counterexample.) -/
theorem c4_search_bounds (nrm : List ℚ → ℚ) (encode : List Char → List ℚ)
    (ct : List ChunkRow) (dt : List (String × String)) (st : VSState)
    (q : List Char) (k : Nat) :
    (supaSearch nrm ct dt q k).length ≤ min k ct.length ∧
    List.Sorted simGE (supaSearch nrm ct dt q k) ∧
    (ct = [] → supaSearch nrm ct dt q k = []) ∧
    (st.index = [] → vs_search nrm encode st q k = Except.ok []) := by
  refine ⟨supaSearch_length nrm ct dt q k, supaSearch_sorted nrm ct dt q k, ?_, ?_⟩
  · intro h
    subst h
    rfl
  · intro h
    simp [vs_search, h]

theorem c4_witness :
    supaSearch nrm0 [] [] ['q'] 3 = [] ∧
    vs_search nrm0 (fun _ => [1]) emptyVS ['q'] 3 = Except.ok [] :=
  ⟨(c4_search_bounds nrm0 (fun _ => [1]) [] [] emptyVS ['q'] 3).2.2.1 rfl,
   (c4_search_bounds nrm0 (fun _ => [1]) [] [] emptyVS ['q'] 3).2.2.2 rfl⟩

/-- Claim C4 (counterexample): on an in-memory store populated by add_documents from
segmenter-produced chunks, search does not return a ranked list at all: processing
the first hit raises KeyError, because the debug print subscripts the absent
chunk_id metadata key. -/
theorem c4_counterexample :
    vs_search nrm0 (fun _ => [1])
      (vs_add_documents nrm0 (fun _ => [1]) emptyVS
        (_create_chunks "hello.".toList "doc.txt" 800 100) "d1" "doc.txt")
      "q".toList 5 = Except.error "KeyError" := rfl

/-- Claim C5 (amended): in the in-memory store every returned result has score
strictly above 0.1 and the threshold is applied to the already-ranked collected
hits (after FAISS top-k ranking); the Supabase store applies no threshold at all
(see the counterexample). -/
theorem c5_threshold_in_memory (nrm : List ℚ → ℚ) (encode : List Char → List ℚ)
    (st : VSState) (q : List Char) (k : Nat) :
    (∀ res, vs_search nrm encode st q k = Except.ok res →
      ∀ r ∈ res, (0.1 : ℚ) < r.score) ∧
    (¬ st.index.length = 0 →
      vs_search nrm encode st q k =
        (vs_collect st.documents
          (faissTopK st.index (vsQueryVec nrm encode q) (min k st.index.length))).map
          (fun results => results.filter (fun r => (0.1 : ℚ) < r.score))) := by
  constructor
  · intro res hres r hr
    unfold vs_search at hres
    split_ifs at hres with h0
    · rw [Except.ok.injEq] at hres
      rw [← hres] at hr
      simp at hr
    · cases hcol : vs_collect st.documents
          (faissTopK st.index (vsQueryVec nrm encode q) (min k st.index.length)) with
      | error e =>
        rw [hcol] at hres
        simp [Except.map] at hres
      | ok l =>
        rw [hcol] at hres
        simp only [Except.map] at hres
        rw [Except.ok.injEq] at hres
        rw [← hres] at hr
        exact of_decide_eq_true (List.mem_filter.mp hr).2
  · intro h0
    unfold vs_search
    rw [if_neg h0]

theorem c5_witness :
    (∀ r ∈ ([] : List VSResult), (0.1 : ℚ) < r.score) ∧
    vs_search nrm0 (fun _ => [1])
        ⟨[[1]], [⟨['c'], [("filename", PyVal.s "f"), ("chunk_id", PyVal.n 0)]⟩], [[1]]⟩
        ['q'] 2 =
      (vs_collect [⟨['c'], [("filename", PyVal.s "f"), ("chunk_id", PyVal.n 0)]⟩]
        (faissTopK [[1]] (vsQueryVec nrm0 (fun _ => [1]) ['q'])
          (min 2 ([[1]] : List (List ℚ)).length))).map
        (fun results => results.filter (fun r => (0.1 : ℚ) < r.score)) :=
  ⟨(c5_threshold_in_memory nrm0 (fun _ => [1]) emptyVS ['q'] 2).1 [] rfl,
   (c5_threshold_in_memory nrm0 (fun _ => [1])
      ⟨[[1]], [⟨['c'], [("filename", PyVal.s "f"), ("chunk_id", PyVal.n 0)]⟩], [[1]]⟩
      ['q'] 2).2 (by decide)⟩

/-- Claim C5 (counterexample): the Supabase search applies no minimum-similarity
threshold: a stored zero-norm chunk is returned with similarity 0, which is not
greater than 0.1. -/
theorem c5_counterexample :
    ∃ r ∈ supaSearch nrm0 [⟨"d1", 0, ['c'], [0]⟩] [("d1", "f")] ['q'] 5,
      ¬ (0.1 : ℚ) < r.similarity := by
  refine ⟨⟨['c'], [("filename", PyVal.s "f"), ("chunk_id", PyVal.n 0)], 0⟩, ?_, by norm_num⟩
  have htake : (([⟨"d1", 0, ['c'], [0]⟩] : List ChunkRow)).take 1000 =
      [⟨"d1", 0, ['c'], [0]⟩] :=
    List.take_of_length_le (by norm_num)
  have hchunks : listChunks 50 ([⟨"d1", 0, ['c'], [0]⟩] : List ChunkRow) =
      [[⟨"d1", 0, ['c'], [0]⟩]] := rfl
  have hnrm : nrm0 [0] = 0 := by simp [nrm0, sumSq]
  have hdl : docsLookup [("d1", "f")] "d1" = "f" := rfl
  have hscore : scoreChunk nrm0 [("d1", "f")] (supaQueryVec nrm0 ['q'])
      ⟨"d1", 0, ['c'], [0]⟩ =
      some ⟨['c'], [("filename", PyVal.s "f"), ("chunk_id", PyVal.n 0)], 0⟩ := by
    simp [scoreChunk, hnrm, hdl]
  have hres : supaSearch nrm0 [⟨"d1", 0, ['c'], [0]⟩] [("d1", "f")] ['q'] 5 =
      [⟨['c'], [("filename", PyVal.s "f"), ("chunk_id", PyVal.n 0)], 0⟩] := by
    unfold supaSearch
    rw [htake, hchunks]
    rw [if_neg (by simp)]
    rw [supaSearchLoop, supaSearchLoop]
    simp [hscore, hnrm, hdl, List.insertionSort, List.orderedInsert]
  rw [hres]
  exact List.mem_singleton_self _

/-- Claim C6 (amended): in the Supabase store a stored vector with zero norm gets
similarity 0 from search, every divisor used by add_documents is nonzero (zero norms
are replaced by 1.0 before dividing), and for any norm satisfying NormSpec every
divisor used by search is nonzero (the hash query embedding always has nonzero sum
of squares).  The in-memory store has no such guards, see the counterexample. -/
theorem c6_zero_norm_guarded (nrm : List ℚ → ℚ) (docs : List (String × String))
    (qn : List ℚ) (c : ChunkRow) (x : ScoredRow)
    (llm : Option (List Char → RemoteResult)) (chunks : List Chunk)
    (ct : List ChunkRow) (q : List Char) :
    (nrm c.embedding = 0 → scoreChunk nrm docs qn c = some x → x.similarity = 0) ∧
    (∀ d ∈ supa_add_divisors nrm llm chunks, ¬ d = 0) ∧
    (NormSpec nrm → ∀ d ∈ supa_search_divisors nrm ct q, ¬ d = 0) := by
  refine ⟨fun h0 h => scoreChunk_zero_norm nrm docs qn c x h0 h, ?_, ?_⟩
  · intro d hd
    unfold supa_add_divisors at hd
    rcases List.mem_map.mp hd with ⟨r, _, hr⟩
    rw [← hr]
    unfold zeroGuardNorm
    split_ifs with h
    · norm_num
    · exact h
  · intro hspec d hd
    unfold supa_search_divisors at hd
    split_ifs at hd with hempty
    · simp at hd
    · rcases List.mem_cons.mp hd with h | h
      · rw [h]
        intro hc
        have hz := (hspec _).mp hc
        rw [simple_eq_hash] at hz
        exact sumSq_hashEmb_ne q hz
      · rcases List.mem_filterMap.mp h with ⟨c2, _, hc2⟩
        by_cases h1 : c2.embedding.length = 0
        · rw [if_pos h1] at hc2
          simp at hc2
        · rw [if_neg h1] at hc2
          by_cases h2 : nrm c2.embedding = 0
          · rw [if_pos h2] at hc2
            simp at hc2
          · rw [if_neg h2] at hc2
            rw [Option.some.injEq] at hc2
            rw [← hc2]
            exact h2

theorem c6_witness :
    ((⟨['c'], [("filename", PyVal.s ""), ("chunk_id", PyVal.n 0)], 0⟩ :
        ScoredRow).similarity = 0) ∧
    (∀ d ∈ supa_add_divisors nrm0 none [⟨['x'], []⟩], ¬ d = 0) ∧
    (∀ d ∈ supa_search_divisors nrm0 [⟨"d", 0, ['c'], [0]⟩] ['q'], ¬ d = 0) := by
  have h := c6_zero_norm_guarded nrm0 [] [1] ⟨"d", 0, ['c'], [0, 0]⟩
    ⟨['c'], [("filename", PyVal.s ""), ("chunk_id", PyVal.n 0)], 0⟩ none [⟨['x'], []⟩]
    [⟨"d", 0, ['c'], [0]⟩] ['q']
  refine ⟨h.1 ?_ ?_, h.2.1, h.2.2 normSpec_nrm0⟩
  · simp [nrm0, sumSq]
  · simp [scoreChunk, nrm0, sumSq, docsLookup]

/-- Claim C6 (counterexample): the in-memory store normalizes with no zero guard:
with a legitimate norm function (NormSpec holds for it), an encoder returning the
zero vector makes both add_documents and search divide by a zero norm. -/
theorem c6_counterexample :
    NormSpec nrm0 ∧
    (0 : ℚ) ∈ vs_add_divisors nrm0 (fun _ => [0]) [⟨['x'], []⟩] ∧
    (0 : ℚ) ∈ vs_search_divisors nrm0 (fun _ => [0]) ⟨[[0]], [], []⟩ ['q'] := by
  refine ⟨normSpec_nrm0, ?_, ?_⟩ <;>
    simp [vs_add_divisors, vs_search_divisors, nrm0, sumSq]

/-- Claim C7 (amended): load_index resets to the empty state and re-raises only when
both files exist and reading fails; when both exist and read fine the persisted
state replaces the current one; when either file is missing the call leaves the
current state untouched and reports success. -/
theorem c7_load_index_behavior (fs : FSModel) (st : VSState) :
    (fs.faiss_exists = true → fs.pkl_exists = true →
      ¬ (fs.faiss_ok = true ∧ fs.pkl_ok = true) →
      vs_load_index fs st = (emptyVS, Except.error "load failed")) ∧
    (fs.faiss_exists = true → fs.pkl_exists = true → fs.faiss_ok = true →
      fs.pkl_ok = true →
      vs_load_index fs st =
        (⟨fs.faiss_index, fs.pkl_documents, fs.pkl_embeddings⟩, Except.ok ())) ∧
    (¬ (fs.faiss_exists = true ∧ fs.pkl_exists = true) →
      vs_load_index fs st = (st, Except.ok ())) := by
  refine ⟨?_, ?_, ?_⟩
  · intro h1 h2 h3
    unfold vs_load_index
    rw [h1, h2]
    have : ¬ (fs.faiss_ok && fs.pkl_ok) = true := by
      intro hc
      exact h3 (by constructor <;> revert hc <;> cases fs.faiss_ok <;> cases fs.pkl_ok <;> simp)
    simp [this]
  · intro h1 h2 h3 h4
    unfold vs_load_index
    rw [h1, h2, h3, h4]
    rfl
  · intro h
    unfold vs_load_index
    have : ¬ (fs.faiss_exists && fs.pkl_exists) = true := by
      intro hc
      exact h (by constructor <;> revert hc <;> cases fs.faiss_exists <;> cases fs.pkl_exists <;> simp)
    simp [this]

theorem c7_witness :
    vs_load_index ⟨true, true, false, true, [], [], []⟩ emptyVS =
      (emptyVS, Except.error "load failed") ∧
    vs_load_index ⟨true, true, true, true, [[1]], [], []⟩ emptyVS =
      (⟨[[1]], [], []⟩, Except.ok ()) ∧
    vs_load_index ⟨false, true, true, true, [], [], []⟩ emptyVS =
      (emptyVS, Except.ok ()) :=
  ⟨(c7_load_index_behavior ⟨true, true, false, true, [], [], []⟩ emptyVS).1 rfl rfl
      (by simp),
   (c7_load_index_behavior ⟨true, true, true, true, [[1]], [], []⟩ emptyVS).2.1 rfl rfl
      rfl rfl,
   (c7_load_index_behavior ⟨false, true, true, true, [], [], []⟩ emptyVS).2.2
      (by simp)⟩

/-- Claim C7 (counterexample): restoring from a location where one persisted
artifact is missing neither resets the (non-empty) current index to the empty state
nor surfaces any failure: the state survives untouched and the call reports
success. -/
theorem c7_counterexample :
    vs_load_index ⟨true, false, true, true, [], [], []⟩
        ⟨[[1]], [⟨['c'], []⟩], [[1]]⟩ =
      (⟨[[1]], [⟨['c'], []⟩], [[1]]⟩, Except.ok ()) ∧
    (⟨[[1]], [⟨['c'], []⟩], [[1]]⟩ : VSState) ≠ emptyVS := by
  exact ⟨rfl, by decide⟩

/-- Claim C8 (amended): every result of the Supabase search carries metadata with a
filename entry and a chunk_id entry holding the chunk index, and carries no
chunk_index key at all. -/
theorem c8_metadata_keys (nrm : List ℚ → ℚ) (ct : List ChunkRow)
    (dt : List (String × String)) (q : List Char) (k : Nat) :
    ∀ r ∈ supaSearch nrm ct dt q k,
      (∃ f, dictGet r.metadata "filename" = some (PyVal.s f)) ∧
      (∃ i, dictGet r.metadata "chunk_id" = some (PyVal.n i)) ∧
      dictGet r.metadata "chunk_index" = none := by
  intro r hr
  obtain ⟨c, _, hsc⟩ := supaSearch_mem nrm ct dt q k r hr
  have hmd := scoreChunk_some_shape nrm dt (supaQueryVec nrm q) c r hsc
  rw [hmd]
  exact ⟨⟨_, rfl⟩, ⟨_, rfl⟩, rfl⟩

theorem c8_witness :
    (∃ f, dictGet [("filename", PyVal.s ""), ("chunk_id", PyVal.n 0)] "filename" =
      some (PyVal.s f)) ∧
    (∃ i, dictGet [("filename", PyVal.s ""), ("chunk_id", PyVal.n 0)] "chunk_id" =
      some (PyVal.n i)) ∧
    dictGet [("filename", PyVal.s ""), ("chunk_id", PyVal.n 0)] "chunk_index" =
      none := by
  have htake : (([⟨"d", 0, ['c'], [0]⟩] : List ChunkRow)).take 1000 =
      [⟨"d", 0, ['c'], [0]⟩] :=
    List.take_of_length_le (by norm_num)
  have hchunks : listChunks 50 ([⟨"d", 0, ['c'], [0]⟩] : List ChunkRow) =
      [[⟨"d", 0, ['c'], [0]⟩]] := rfl
  have hnrm : nrm0 [0] = 0 := by simp [nrm0, sumSq]
  have hdl : docsLookup [] "d" = "" := rfl
  have hscore : scoreChunk nrm0 [] (supaQueryVec nrm0 ['q']) ⟨"d", 0, ['c'], [0]⟩ =
      some ⟨['c'], [("filename", PyVal.s ""), ("chunk_id", PyVal.n 0)], 0⟩ := by
    simp [scoreChunk, hnrm, hdl]
  have hres : supaSearch nrm0 [⟨"d", 0, ['c'], [0]⟩] [] ['q'] 5 =
      [⟨['c'], [("filename", PyVal.s ""), ("chunk_id", PyVal.n 0)], 0⟩] := by
    unfold supaSearch
    rw [htake, hchunks]
    rw [if_neg (by simp)]
    rw [supaSearchLoop, supaSearchLoop]
    simp [hscore, hnrm, hdl, List.insertionSort, List.orderedInsert]
  have h := c8_metadata_keys nrm0 [⟨"d", 0, ['c'], [0]⟩] [] ['q'] 5
    ⟨['c'], [("filename", PyVal.s ""), ("chunk_id", PyVal.n 0)], 0⟩
    (by rw [hres]; exact List.mem_singleton_self _)
  exact h

set_option maxRecDepth 100000 in
/-- Claim C8 (counterexample): a Supabase index populated by add_documents from
segmenter-produced chunks, queried with top_k 5, returns exactly one result and its
metadata has no chunk_index key (the index value is stored under chunk_id). -/
theorem c8_counterexample :
    (supaSearch nrm0
      (supa_add_documents nrm0 (some (fun _ => RemoteResult.ok none)) emptySupa
        (_create_chunks "hi".toList "doc.txt" 800 100) "d1" "doc.txt").chunks
      (supa_add_documents nrm0 (some (fun _ => RemoteResult.ok none)) emptySupa
        (_create_chunks "hi".toList "doc.txt" 800 100) "d1" "doc.txt").documents
      "What".toList 5).map (fun r => dictGet r.metadata "chunk_index") = [none] := rfl

theorem c9_witness :
    _create_chunks "   ".toList "f" 8 1 = [] ∧
    _create_chunks "hi".toList "f" 8 1 = [⟨"hi".toList, mkChunkMeta "f" 0 0 8⟩] := by
  have h2 := (c9_edge_cases "hi".toList "f" 8 1).2 (by decide) (by decide)
  exact ⟨(c9_edge_cases "   ".toList "f" 8 1).1 (by decide), h2.trans (by decide)⟩

end RAG
